import Mathlib

/-!
Verification of the sequence-tagger core of the ELMo repository
(`src/tagger.py`, `src/standalone_tagger.py`).

Pure list/string helpers of the taggers are embedded directly from the
Python source.  The CRF scoring engine itself (`seqlabel/crf_layer.py`,
`seqlabel/partial_crf_layer.py`) is not part of the source tree, so it is
modelled from the specification (spec.md §4.1, §4.2, §4.4); those
definitions carry a doc comment starting with `Modelled from the spec:`.
-/

namespace ELMoTagger

/-! ## CRF engine, modelled from the spec (seqlabel/ is not under src/) -/

/-- Modelled from the spec: `logsumexp` over a vector `v` =
`max(v) + log(Σ exp(v_i − max(v)))` (spec.md §4.1).  The repository file
`seqlabel/crf_layer.py` that implements it is not under `src/`. -/
noncomputable def lse (v : List ℝ) : ℝ :=
  let m := v.foldl max (v.headD 0)
  m + Real.log ((v.map (fun x => Real.exp (x - m))).sum)

/-- Modelled from the spec: one step of the constrained forward recursion
`α[t][c] = E[t][c] + logsumexp_{p ∈ CandidateSet[t-1]}( α[t-1][p] + T[p][c] )`
for `c ∈ CandidateSet[t]` (spec.md §4.4).  `prev` carries the pairs
`(p, α[t-1][p])` for the candidate set of the previous position. -/
noncomputable def stepMarginal (Tm : ℕ → ℕ → ℝ) (prev : List (ℕ × ℝ))
    (e : ℕ → ℝ) (cands : List ℕ) : List (ℕ × ℝ) :=
  cands.map (fun c => (c, e c + lse (prev.map (fun pa => pa.2 + Tm pa.1 c))))

/-- Modelled from the spec: iterate the constrained forward recursion over the
remaining positions, each given as an emission row paired with its candidate
set (spec.md §4.4). -/
noncomputable def runMarginal (Tm : ℕ → ℕ → ℝ) :
    List (ℕ × ℝ) → List ((ℕ → ℝ) × List ℕ) → List (ℕ × ℝ)
  | prev, [] => prev
  | prev, pc :: rest => runMarginal Tm (stepMarginal Tm prev pc.1 pc.2) rest

/-- Modelled from the spec: the restricted partition function `Z_partial`
(spec.md §4.4).  Tags are ids in `[0, C)`; inside the transition table `Tm`,
row/column `C` is START and `C+1` is END (spec.md §3).  The base case is
`α[0][c] = T[START][c] + E[0][c]` for `c ∈ CandidateSet[0]`, and the final
reduction is `logsumexp_{c} (α[T-1][c] + T[c][END])`.  A zero-length
sequence is a fatal error in the spec (§4.1); the value returned for it here
is irrelevant junk and the theorems assume a non-empty sequence. -/
noncomputable def zMarginal (Tm : ℕ → ℕ → ℝ) (C : ℕ) (es : List (ℕ → ℝ))
    (cs : List (List ℕ)) : ℝ :=
  match es, cs with
  | e0 :: erest, c0 :: crest =>
    let fin := runMarginal Tm (c0.map (fun c => (c, Tm C c + e0 c))) (erest.zip crest)
    lse (fin.map (fun pa => pa.2 + Tm pa.1 (C + 1)))
  | _, _ => 0

/-- Modelled from the spec: the unrestricted log partition function `Z`
(spec.md §4.1), obtained from the shared constrained core by taking every
candidate set to be the whole label space `[0, C)` (spec.md §9, variant
dispatch). -/
noncomputable def zFull (Tm : ℕ → ℕ → ℝ) (C : ℕ) (es : List (ℕ → ℝ)) : ℝ :=
  zMarginal Tm C es (es.map (fun _ => List.range C))

/-- Modelled from the spec: the score of a single tag path continued from the
tag `prev`, ending with the boundary transition into `endTag` (spec.md §4.2):
each step contributes `T[prev][tag] + E[t][tag]`, and the empty remainder
contributes `T[prev][END]`. -/
noncomputable def pathScoreFrom (Tm : ℕ → ℕ → ℝ) (endTag : ℕ) :
    ℕ → List ((ℕ → ℝ) × ℕ) → ℝ
  | prev, [] => Tm prev endTag
  | prev, et :: rest => Tm prev et.2 + et.1 et.2 + pathScoreFrom Tm endTag et.2 rest

/-- Modelled from the spec: the gold-path score
`Σ_t E[t][g[t]] + T[g[t-1]][g[t]]` with `g[-1] = START = C` and a final term
`T[g[T-1]][END]` (spec.md §4.2). -/
noncomputable def goldScore (Tm : ℕ → ℕ → ℝ) (C : ℕ) (es : List (ℕ → ℝ))
    (g : List ℕ) : ℝ :=
  pathScoreFrom Tm (C + 1) C (es.zip g)

/-- Modelled from the spec: full-supervision CRF loss for one sequence,
`Z − score(g)` (spec.md §4.2). -/
noncomputable def crfLossFull (Tm : ℕ → ℕ → ℝ) (C : ℕ) (es : List (ℕ → ℝ))
    (g : List ℕ) : ℝ :=
  zFull Tm C es - goldScore Tm C es g

/-- Modelled from the spec: partial-supervision CRF loss for one sequence,
`Z_total − Z_partial` (spec.md §4.4). -/
noncomputable def crfLossMarginal (Tm : ℕ → ℕ → ℝ) (C : ℕ) (es : List (ℕ → ℝ))
    (cs : List (List ℕ)) : ℝ :=
  zFull Tm C es - zMarginal Tm C es cs

/-! ## Batch ordering (`create_batches` / `eval_model`, both taggers) -/

/-- Embeds the assignment loop `for i, l in enumerate(lst): order[l] = i` of
`create_batches` (src/tagger.py lines 128-130, src/standalone_tagger.py lines
118-120): `setAll acc i lst` performs `acc[l] := i` for the successive
elements `l` of `lst`, counting `i` up from its initial value. -/
def setAll : List ℕ → ℕ → List ℕ → List ℕ
  | acc, _, [] => acc
  | acc, i, l :: rest => setAll (acc.set l i) (i + 1) rest

/-- Embeds `order = [0] * len(lst)` followed by the `enumerate` loop of
`create_batches` (src/tagger.py lines 128-130). -/
def buildOrder (lst : List ℕ) : List ℕ :=
  setAll (List.replicate lst.length 0) 0 lst

/-- Embeds the emission loop of `eval_model` (src/tagger.py lines 211-214,
src/standalone_tagger.py lines 196-199): `for l in order:` look up the tag
list of sorted position `l` in `tagset`. -/
def emitOrder (order : List ℕ) (tagset : List (List String)) : List (List String) :=
  order.map (fun l => tagset.getD l [])

/-- Embeds the printing inside that loop: each sequence contributes one line
per tag followed by a single blank line (src/tagger.py lines 211-214). -/
def outputLines (seqs : List (List String)) : List String :=
  (seqs.map (fun tags => tags ++ [""])).flatten

/-! ## External scorer invocation (`eval_model`, both taggers) -/

/-- Embeds Python `str.strip()` on the character list of a line: drop
whitespace from both ends. -/
def stripChars (l : List Char) : List Char :=
  ((l.dropWhile Char.isWhitespace).reverse.dropWhile Char.isWhitespace).reverse

/-- Embeds Python `str.split()` with no separator: the maximal runs of
non-whitespace characters, in order.  `acc` holds the reversed current run. -/
def splitWSAux : List Char → List Char → List (List Char)
  | acc, [] => if acc = [] then [] else [acc.reverse]
  | acc, c :: rest =>
    if c.isWhitespace then
      if acc = [] then splitWSAux [] rest else acc.reverse :: splitWSAux [] rest
    else splitWSAux (c :: acc) rest

/-- Embeds `line.strip().split()` from `eval_model` (src/tagger.py line 222,
src/standalone_tagger.py line 207). -/
def pyTokens (line : String) : List String :=
  (splitWSAux [] (stripChars line.data)).map (fun t => String.mk t)

/-- Embeds the scorer-output loop of `eval_model` (src/tagger.py lines
220-222): `f` starts at `0` and each stdout line overwrites it with
`line.strip().split()[-1]`; a line with no tokens makes the `[-1]` index
fail, which propagates as `none`. -/
def finalToken (lines : List String) : Option String :=
  List.foldlM (fun _ line => (pyTokens line).getLast?) "0" lines

/-- Embeds the tail of `eval_model` (src/tagger.py lines 218-224): the float
parse of the final `f` is returned; with no stdout lines `f` is still the
integer `0`, giving `0.0`.  `parse` abstracts Python `float()`, returning
`none` on unparseable input (an uncaught `ValueError`). -/
def evalScore (parse : String → Option ℝ) (lines : List String) : Option ℝ :=
  match lines with
  | [] => some (0 : ℝ)
  | _ => (finalToken lines).bind parse

/-- Embeds the argument vector of the scorer subprocess,
`subprocess.Popen([args.script, gold_path, path], ...)` (src/tagger.py line
218, src/standalone_tagger.py line 203). -/
def scorerArgv (script gold pred : String) : List String :=
  [script, gold, pred]

/-- A concrete parse function used to exhibit scorer behaviour on concrete
stdout transcripts. -/
def parseProbe : String → Option ℝ :=
  fun s => if s = "1.0" then some 1 else none

/-! ## Model.forward loss assembly (both taggers) -/

/-- Embeds `weight.data.norm(2)`: the L2 (Frobenius) norm of the
`hidden2tag` weight matrix, as used in `Model.forward` (src/tagger.py line
184, src/standalone_tagger.py line 170). -/
noncomputable def l2norm (w : List (List ℝ)) : ℝ :=
  Real.sqrt ((w.flatten.map (fun x => x ^ 2)).sum)

/-- Embeds the tail of `Model.forward` (src/tagger.py lines 179-186,
src/standalone_tagger.py lines 164-172): the classify-layer loss gets
`opt.l2 * ‖hidden2tag.weight‖₂` added exactly when `self.training` holds. -/
noncomputable def modelForwardLoss (training : Bool) (l2 : ℝ)
    (w : List (List ℝ)) (classifyLoss : ℝ) : ℝ :=
  if training then classifyLoss + l2 * l2norm w else classifyLoss

/-! ## Dictionary lookups with fallback (`label_to_index`, `create_one_batch`) -/

/-- Embeds a Python `dict` lookup `d.get(k)` over an insertion-ordered
association list: `none` when the key is absent. -/
def lookupD (d : List (String × ℕ)) (k : String) : Option ℕ :=
  (d.find? (fun p => p.1 == k)).map Prod.snd

/-- Embeds the body of the inner loop of `label_to_index` (src/tagger.py
lines 284-288): a new label is appended with id `len(label_to_ix)` when
`incremental` holds, otherwise `label_to_ix.get(label, 0)` is used. -/
def labelToIndexStep (incremental : Bool)
    (acc : List (String × ℕ) × List ℕ) (lab : String) :
    List (String × ℕ) × List ℕ :=
  if (lookupD acc.1 lab).isNone && incremental then
    (acc.1 ++ [(lab, acc.1.length)], acc.2 ++ [acc.1.length])
  else
    (acc.1, acc.2 ++ [(lookupD acc.1 lab).getD 0])

/-- Embeds the inner loop of `label_to_index` over the labels of one sentence. -/
def labelToIndexRow (incremental : Bool) (d : List (String × ℕ))
    (row : List String) : List (String × ℕ) × List ℕ :=
  row.foldl (labelToIndexStep incremental) (d, [])

/-- Embeds `label_to_index` (src/tagger.py lines 281-288,
src/standalone_tagger.py lines 266-273): threads the label dictionary
through all sentences, replacing each label string with its id. -/
def label_to_index (incremental : Bool) (d : List (String × ℕ))
    (y : List (List String)) : List (String × ℕ) × List (List ℕ) :=
  y.foldl (fun acc row =>
    let r := labelToIndexRow incremental acc.1 row
    (r.1, acc.2 ++ [r.2])) (d, [])

/-- Embeds `word2id.get(x_ij, oov_id)` from `create_one_batch`
(src/tagger.py line 75). -/
def wordToId (w2i : List (String × ℕ)) (oovId : ℕ) (w : String) : ℕ :=
  (lookupD w2i w).getD oovId

/-! ## Row padding in `create_one_batch` and decode extraction -/

/-- Embeds the element-wise assignments `row[j] := x` for successive `x`,
starting at index `j`, as performed on a pre-filled tensor row by
`create_one_batch` (src/tagger.py lines 74-76). -/
def writeFrom : List ℕ → ℕ → List ℕ → List ℕ
  | acc, _, [] => acc
  | acc, j, x :: rest => writeFrom (acc.set j x) (j + 1) rest

/-- Embeds one row of `batch_x` / `batch_y` in `create_one_batch`
(src/tagger.py lines 63-76): the row is filled with `fill` (`pad_id` for
`batch_x`, `0` for `batch_y`) and its first `ids.length` positions are then
overwritten with the ids of the sequence. -/
def fillRow (fill : ℕ) (maxLen : ℕ) (ids : List ℕ) : List ℕ :=
  writeFrom (List.replicate maxLen fill) 0 ids

/-- Embeds the decode loop `for k in range(lens[bid])` of `eval_model`
(src/tagger.py lines 206-208): only the first `len` entries of a decoder
output row are read. -/
def takeValid (out : List ℕ) (len : ℕ) : List ℕ :=
  out.take len

/-! ## Label dictionary file round trip (`train` writes, `test` reads) -/

/-- Embeds Python `str(i)` for a nonnegative integer: decimal digits, most
significant first.  Structural fuel recursion so that concrete values reduce
in the kernel; the fuel `n + 1` always suffices. -/
def natToCharsAux : ℕ → ℕ → List Char
  | 0, _ => []
  | fuel + 1, n =>
    if n < 10 then [Nat.digitChar n]
    else natToCharsAux fuel (n / 10) ++ [Nat.digitChar (n % 10)]

/-- Embeds the decimal rendering of a label id as written by the
`label.dic` printing loop of `train()` (src/tagger.py lines 431-433). -/
def natToChars (n : ℕ) : List Char :=
  natToCharsAux (n + 1) n

/-- Embeds Python `int(s)` restricted to the nonnegative decimal numerals the
dictionary writer produces: digits only, `none` (an uncaught `ValueError`)
otherwise. -/
def parseNatChars (l : List Char) : Option ℕ :=
  if l ≠ [] ∧ l.all Char.isDigit = true then
    some (l.foldl (fun a c => a * 10 + (c.toNat - 48)) 0)
  else none

/-- Embeds the Python split-on-tab `line.split` call: split at every tab, keeping empty
pieces.  `acc` holds the reversed current piece. -/
def splitTabAux : List Char → List Char → List (List Char)
  | acc, [] => [acc.reverse]
  | acc, c :: rest =>
    if c = '\t' then acc.reverse :: splitTabAux [] rest
    else splitTabAux (c :: acc) rest

/-- Embeds iteration over the lines of an opened text file: pieces between
`'\n'` characters, with no phantom empty line after a trailing newline. -/
def splitLinesAux : List Char → List Char → List (List Char)
  | acc, [] => if acc = [] then [] else [acc.reverse]
  | acc, c :: rest =>
    if c = '\n' then acc.reverse :: splitLinesAux [] rest
    else splitLinesAux (c :: acc) rest

/-- Embeds the `token, i = split of stripped line on tab` step and `int(i)` from
`test()` (src/tagger.py lines 493-496): `none` models the `ValueError` when
the line does not split into exactly two pieces or the id does not parse. -/
def parseLineChars (l : List Char) : Option (String × ℕ) :=
  match splitTabAux [] (stripChars l) with
  | [token, i] => (parseNatChars i).map (fun n => (String.mk token, n))
  | _ => none

/-- Embeds one line written by `train()`: the label, a tab, then the decimal
id (src/tagger.py line 433). -/
def dicLine (p : String × ℕ) : List Char :=
  p.1.data ++ '\t' :: natToChars p.2

/-- Embeds the `label.dic` file contents written by `train()` (src/tagger.py
lines 431-433): one line per dictionary entry, each terminated by the
newline that `print` appends. -/
def writeDicChars (d : List (String × ℕ)) : List Char :=
  (d.map (fun p => dicLine p ++ ['\n'])).flatten

/-- Embeds the `label.dic` reading loop of `test()` (src/tagger.py lines
492-496): parse every line of the file, failing if any line fails. -/
def readDicChars (content : List Char) : Option (List (String × ℕ)) :=
  (splitLinesAux [] content).mapM parseLineChars

/-- Decidable guard used in the amended C7 hypothesis: the label is nonempty
and its first character is not whitespace (so `strip()` cannot eat into the
label side of the line). -/
def headNotWS : List Char → Bool
  | [] => false
  | c :: _ => !c.isWhitespace

/-! ## The broken `test` subcommands -/

/-- Embeds the arity of `Model.__init__` in src/tagger.py line 135 besides
`self`: `opt, word_emb_layer, dim, n_layers, n_class, consider_word_piece,
use_cuda` — seven parameters. -/
def taggerModelArity : ℕ := 7

/-- Embeds the call `Model(args2, word_emb_layer, dim, n_layers,
len(label2id), use_cuda)` in src/tagger.py line 501: six positional
arguments. -/
def taggerTestModelArgs : ℕ := 6

/-- Embeds the arity of `Model.__init__` in src/standalone_tagger.py line
125 besides `self`: `opt, dim, n_layers, n_class, consider_word_piece,
use_cuda` — six parameters. -/
def standaloneModelArity : ℕ := 6

/-- Embeds the call `Model(args2, dim, n_layers, len(label2id), use_cuda)`
in src/standalone_tagger.py line 443: five positional arguments. -/
def standaloneTestModelArgs : ℕ := 5

/-- Embeds the first failing step of `test()` in src/tagger.py: the list
`word_emb_layers` is bound to `[]` at line 478 and never appended to, and
line 489 evaluates `word_emb_layers[0].word2id`; indexing an empty Python
list raises `IndexError`, so everything after that line — batching, decoding
and output emission, abstracted as `rest` — is unreachable. -/
def taggerTestRun (rest : Unit → Except String (List String)) :
    Except String (List String) :=
  match ([] : List Unit).get? 0 with
  | none => Except.error "IndexError: list index out of range"
  | some _ => rest ()

/-- Embeds the first failing step of `test()` in src/standalone_tagger.py:
line 443 calls the `Model` constructor with five positional arguments
against a six-parameter signature, which Python rejects with `TypeError`
before the constructor body runs; everything after — batching, decoding and
output emission, abstracted as `rest` — is unreachable. -/
def standaloneTestRun (rest : Unit → Except String (List String)) :
    Except String (List String) :=
  if standaloneTestModelArgs = standaloneModelArity then rest ()
  else Except.error "TypeError: init missing 1 required positional argument"

/-! ## Filesystem effect of `eval_model` -/

/-- Embeds the filesystem effect of `eval_model` (src/tagger.py lines
189-224, src/standalone_tagger.py lines 175-209): the predicted-output path
is `args.output` when given, else a fresh temporary file; the decoded lines
are written there, the scorer reads them, and `os.remove(path)` then deletes
that path unconditionally.  The filesystem is a map from path to contents;
the pair returned is (final filesystem, predicted-output path). -/
def evalModelFS (fs : String → Option (List String)) (outputArg : Option String)
    (tmp : String) (outLines : List String) :
    (String → Option (List String)) × String :=
  let path := match outputArg with
    | some p => p
    | none => tmp
  let fsWritten : String → Option (List String) :=
    fun q => if q = path then some outLines else fs q
  let fsRemoved : String → Option (List String) :=
    fun q => if q = path then none else fsWritten q
  (fsRemoved, path)

/-! ## `keep_full` batching -/

/-- Embeds the inner `while` loop of `create_batches` (src/tagger.py lines
112-113, src/standalone_tagger.py lines 104-105): starting from `e`, advance
`end_id` while the sequence there has the same length as the one at
`start`.  Structural fuel recursion; fuel `lens.length` always suffices. -/
def extendRun (lens : List ℕ) (start : ℕ) : ℕ → ℕ → ℕ
  | 0, e => e
  | fuel + 1, e =>
    if e < lens.length ∧ lens.getD e 0 = lens.getD start 0 then
      extendRun lens start fuel (e + 1)
    else e

/-- Embeds the batch-boundary loop of `create_batches` (src/tagger.py lines
104-125) on the lengths of the sorted data: the `(start_id, end_id)` range
of each produced batch.  `end_id` is clipped to the data length, and with
`keepFull` a batch whose first and last sequences differ in length is shrunk
by the `while` loop.  Structural fuel recursion; fuel `lens.length`
suffices since each batch advances `start` by at least one. -/
def batchLoop (lens : List ℕ) (size : ℕ) (keepFull : Bool) :
    ℕ → ℕ → List (ℕ × ℕ)
  | 0, _ => []
  | fuel + 1, start =>
    if start < lens.length then
      let e0 := min (start + size) lens.length
      let endId :=
        if keepFull = true ∧ lens.getD start 0 ≠ lens.getD (e0 - 1) 0 then
          extendRun lens start lens.length (start + 1)
        else e0
      (start, endId) :: batchLoop lens size keepFull fuel endId
    else []

/-- Embeds the whole batching pass of `create_batches` at the level of index
ranges. -/
def createBatchRanges (lens : List ℕ) (size : ℕ) (keepFull : Bool) :
    List (ℕ × ℕ) :=
  batchLoop lens size keepFull lens.length 0

/-! ## Lemmas about the CRF core -/

theorem lse_single (x : ℝ) : lse [x] = x := by
  simp [lse, sub_self, Real.exp_zero, Real.log_one]

theorem runMarginal_single (Tm : ℕ → ℕ → ℝ) (endTag : ℕ) :
    ∀ (l : List ((ℕ → ℝ) × ℕ)) (t0 : ℕ) (s0 : ℝ),
      lse ((runMarginal Tm [(t0, s0)] (l.map (fun p => (p.1, [p.2])))).map
        (fun pa => pa.2 + Tm pa.1 endTag)) = s0 + pathScoreFrom Tm endTag t0 l := by
  intro l
  induction l with
  | nil =>
    intro t0 s0
    simp [runMarginal, pathScoreFrom, lse_single]
  | cons p rest ih =>
    intro t0 s0
    obtain ⟨e, t⟩ := p
    have hstep : stepMarginal Tm [(t0, s0)] e [t]
        = [(t, e t + (s0 + Tm t0 t))] := by
      simp [stepMarginal, lse_single]
    simp only [List.map_cons, runMarginal, hstep]
    rw [ih t (e t + (s0 + Tm t0 t))]
    simp only [pathScoreFrom]
    ring

theorem zMarginal_singleton (Tm : ℕ → ℕ → ℝ) (C : ℕ) (e0 : ℕ → ℝ)
    (erest : List (ℕ → ℝ)) (t0 : ℕ) (grest : List ℕ) :
    zMarginal Tm C (e0 :: erest) ((t0 :: grest).map (fun t => [t]))
      = goldScore Tm C (e0 :: erest) (t0 :: grest) := by
  have hzip : erest.zip (grest.map (fun t => [t]))
      = (erest.zip grest).map (fun p => (p.1, [p.2])) := by
    rw [List.zip_map_right]
    rfl
  simp only [List.map_cons, zMarginal, List.map_nil, hzip]
  rw [runMarginal_single Tm (C + 1) (erest.zip grest) t0 (Tm C t0 + e0 t0)]
  simp only [goldScore, List.zip_cons_cons, pathScoreFrom]
  rfl

/-- C1: with every candidate set the singleton of the gold tag, the
partial-CRF loss (`Z_total − Z_partial`) equals the full-supervision CRF loss
(`Z − score(g)`) for the same emissions and transition matrix: the
partial-CRF layer with singleton candidate sets and the full CRF layer are
equivalent. -/
theorem marginal_crf_singleton_eq_full_crf (Tm : ℕ → ℕ → ℝ) (C : ℕ)
    (es : List (ℕ → ℝ)) (g : List ℕ) (hne : es ≠ [])
    (hlen : g.length = es.length) :
    crfLossMarginal Tm C es (g.map (fun t => [t])) = crfLossFull Tm C es g := by
  unfold crfLossMarginal crfLossFull
  cases es with
  | nil => exact absurd rfl hne
  | cons e0 erest =>
    cases g with
    | nil => simp at hlen
    | cons t0 grest =>
      rw [zMarginal_singleton]

/-- Witness for C1 at a concrete input. -/
theorem marginal_crf_singleton_eq_full_crf_witness :
    crfLossMarginal (fun _ _ => (0 : ℝ)) 2 [fun _ => 0]
        (([0] : List ℕ).map (fun t => [t]))
      = crfLossFull (fun _ _ => (0 : ℝ)) 2 [fun _ => 0] [0] :=
  marginal_crf_singleton_eq_full_crf (fun _ _ => 0) 2 [fun _ => 0] [0]
    (by simp) rfl

/-! ## Lemmas about `setAll` and the order array -/

theorem getD_set_ne : ∀ (l : List ℕ) (i j v d : ℕ), i ≠ j →
    (l.set i v).getD j d = l.getD j d := by
  intro l
  induction l with
  | nil => intro i j v d _; rfl
  | cons x xs ih =>
    intro i j v d hij
    cases i with
    | zero =>
      cases j with
      | zero => exact absurd rfl hij
      | succ j' => rfl
    | succ i' =>
      cases j with
      | zero => rfl
      | succ j' =>
        simp only [List.set, List.getD_cons_succ]
        exact ih i' j' v d (fun hc => hij (by rw [hc]))

theorem getD_set_self : ∀ (l : List ℕ) (i v d : ℕ), i < l.length →
    (l.set i v).getD i d = v := by
  intro l
  induction l with
  | nil => intro i v d h; simp at h
  | cons x xs ih =>
    intro i v d h
    cases i with
    | zero => rfl
    | succ i' =>
      simp only [List.set, List.getD_cons_succ]
      exact ih i' v d (by simpa using h)

theorem setAll_length : ∀ (lst acc : List ℕ) (i : ℕ),
    (setAll acc i lst).length = acc.length := by
  intro lst
  induction lst with
  | nil => intro acc i; rfl
  | cons l rest ih =>
    intro acc i
    simp only [setAll]
    rw [ih]
    exact List.length_set acc l i

theorem setAll_not_mem : ∀ (lst acc : List ℕ) (i o : ℕ), o ∉ lst →
    (setAll acc i lst).getD o 0 = acc.getD o 0 := by
  intro lst
  induction lst with
  | nil => intro acc i o _; rfl
  | cons l rest ih =>
    intro acc i o ho
    have hne : l ≠ o := fun hc => ho (by rw [hc]; exact List.mem_cons_self _ _)
    have ho' : o ∉ rest := fun hc => ho (List.mem_cons_of_mem _ hc)
    simp only [setAll]
    rw [ih _ _ _ ho', getD_set_ne _ _ _ _ _ hne]

theorem setAll_mem : ∀ (lst acc : List ℕ) (i o : ℕ), o ∈ lst → lst.Nodup →
    (∀ x ∈ lst, x < acc.length) →
    ∃ j, j < lst.length ∧ lst.getD j 0 = o ∧ (setAll acc i lst).getD o 0 = i + j := by
  intro lst
  induction lst with
  | nil => intro acc i o ho _ _; simp at ho
  | cons l rest ih =>
    intro acc i o ho hnd hlt
    rcases List.mem_cons.mp ho with hol | hor
    · subst hol
      have hldr : o ∉ rest := (List.nodup_cons.mp hnd).1
      refine ⟨0, by simp, rfl, ?_⟩
      simp only [setAll]
      rw [setAll_not_mem _ _ _ _ hldr,
        getD_set_self _ _ _ _ (hlt o (List.mem_cons_self _ _))]
      omega
    · have hnd' : rest.Nodup := (List.nodup_cons.mp hnd).2
      have hlt' : ∀ x ∈ rest, x < (acc.set l i).length := by
        intro x hx
        rw [List.length_set]
        exact hlt x (List.mem_cons_of_mem _ hx)
      obtain ⟨j, hj, hgd, hval⟩ := ih (acc.set l i) (i + 1) o hor hnd' hlt'
      refine ⟨j + 1, by simpa using hj, by simpa using hgd, ?_⟩
      simp only [setAll]
      rw [hval]
      omega

/-- C2: the `order` array built by `create_batches` is the inverse of the
shuffle/sort permutation `lst`; emitting the sorted per-sequence tag lists
`tagset` by `for l in order` restores the original input order, and the
printed lines are one tag per line per position with a blank line after each
sequence, in original input order. -/
theorem order_undoes_sort_permutation (n : ℕ) (lst : List ℕ)
    (f : ℕ → List String) (h : lst.Perm (List.range n)) :
    emitOrder (buildOrder lst) (lst.map f) = (List.range n).map f ∧
    outputLines (emitOrder (buildOrder lst) (lst.map f))
      = outputLines ((List.range n).map f) := by
  have hlen : lst.length = n := by
    have := h.length_eq
    simpa using this
  have hnd : lst.Nodup := h.nodup_iff.mpr (List.nodup_range n)
  have hmem : ∀ o, o < n → o ∈ lst := by
    intro o ho
    exact h.mem_iff.mpr (List.mem_range.mpr ho)
  have hmem' : ∀ x ∈ lst, x < n := by
    intro x hx
    exact List.mem_range.mp (h.mem_iff.mp hx)
  have hblen : (buildOrder lst).length = n := by
    rw [buildOrder, setAll_length, List.length_replicate, hlen]
  have hmain : emitOrder (buildOrder lst) (lst.map f) = (List.range n).map f := by
    apply List.ext_getElem
    · simp [emitOrder, hblen]
    · intro o h1 h2
      have hon : o < n := by
        simpa [emitOrder, hblen] using h1
      obtain ⟨j, hj, hgd, hval⟩ := setAll_mem lst (List.replicate lst.length 0) 0 o
        (hmem o hon) hnd
        (by intro x hx; rw [List.length_replicate, hlen]; exact hmem' x hx)
      have hbo : (buildOrder lst).getD o 0 = j := by
        rw [buildOrder, hval]
        omega
      have hgetb : (buildOrder lst)[o] = j := by
        rw [← List.getD_eq_getElem (buildOrder lst) 0 (by rw [hblen]; exact hon), hbo]
      have hjlen : j < (lst.map f).length := by
        rw [List.length_map]
        exact hj
      simp only [emitOrder, List.getElem_map, hgetb]
      rw [List.getD_eq_getElem (lst.map f) [] hjlen]
      simp only [List.getElem_map, List.getElem_range]
      rw [← List.getD_eq_getElem lst 0 hj, hgd]
  exact ⟨hmain, by rw [hmain]⟩

/-- Witness for C2 at a concrete input. -/
theorem order_undoes_sort_permutation_witness :
    emitOrder (buildOrder [2, 0, 1]) ([2, 0, 1].map (fun o => [toString o]))
      = (List.range 3).map (fun o => [toString o]) :=
  (order_undoes_sort_permutation 3 [2, 0, 1] (fun o => [toString o])
    (by decide)).1

/-! ## Lemmas about the scorer loop -/

theorem finalToken_foldl : ∀ (lines : List String) (acc last : String),
    lines.getLast? = some last →
    (∀ l ∈ lines, pyTokens l ≠ []) →
    List.foldlM (fun _ line => (pyTokens line).getLast?) acc lines
      = (pyTokens last).getLast? := by
  intro lines
  induction lines with
  | nil => intro acc last hlast _; simp at hlast
  | cons l rest ih =>
    intro acc last hlast htok
    have hl : (pyTokens l).getLast?.isSome := by
      rw [List.getLast?_isSome]
      exact htok l (List.mem_cons_self _ _)
    obtain ⟨tok, htokeq⟩ := Option.isSome_iff_exists.mp hl
    cases rest with
    | nil =>
      have hll : l = last := by
        simpa using hlast
      subst hll
      simp [List.foldlM, htokeq]
    | cons r rest' =>
      have hlast' : (r :: rest').getLast? = some last := by
        rw [← hlast]
        exact List.getLast?_cons_cons.symm
      have htok' : ∀ x ∈ r :: rest', pyTokens x ≠ [] := by
        intro x hx
        exact htok x (List.mem_cons_of_mem _ hx)
      simp only [List.foldlM, htokeq, Option.bind_eq_bind, Option.some_bind]
      exact ih tok last hlast' htok'

/-- C3 (amended): the scorer argv is `[script, gold, pred]` — exactly two
file-path arguments, gold first, predicted second; `eval_model` returns `0.0`
when the subprocess emits no stdout lines, and when every emitted line has at
least one whitespace-delimited token it returns the float parse of the last
token of the final line.  (A line with no tokens instead raises, see the
counterexample.) -/
theorem eval_model_scorer_spec (parse : String → Option ℝ)
    (script gold pred : String) (lines : List String) (last : String)
    (hlast : lines.getLast? = some last)
    (htok : ∀ l ∈ lines, pyTokens l ≠ []) :
    scorerArgv script gold pred = [script, gold, pred] ∧
    evalScore parse [] = some 0 ∧
    ∃ tok, (pyTokens last).getLast? = some tok ∧
      evalScore parse lines = parse tok := by
  refine ⟨rfl, rfl, ?_⟩
  have hne : lines ≠ [] := by
    intro hc
    rw [hc] at hlast
    simp at hlast
  have hlm : last ∈ lines := by
    obtain ⟨h9, heq⟩ := List.mem_getLast?_eq_getLast (Option.mem_def.mpr hlast)
    rw [heq]
    exact List.getLast_mem h9
  have htl : (pyTokens last).getLast?.isSome := by
    rw [List.getLast?_isSome]
    exact htok last hlm
  obtain ⟨tok, htokeq⟩ := Option.isSome_iff_exists.mp htl
  refine ⟨tok, htokeq, ?_⟩
  cases lines with
  | nil => exact absurd rfl hne
  | cons l rest =>
    show (finalToken (l :: rest)).bind parse = parse tok
    rw [finalToken, finalToken_foldl (l :: rest) "0" last hlast htok, htokeq]
    rfl

/-- Witness for C3 (amended) at a concrete scorer transcript. -/
theorem eval_model_scorer_spec_witness :
    scorerArgv "s" "g" "p" = ["s", "g", "p"] ∧
    evalScore parseProbe [] = some 0 ∧
    ∃ tok, (pyTokens "ok 1.0").getLast? = some tok ∧
      evalScore parseProbe ["acc 97.1", "ok 1.0"] = parseProbe tok :=
  eval_model_scorer_spec parseProbe "s" "g" "p" ["acc 97.1", "ok 1.0"] "ok 1.0"
    rfl (by decide)

/-- C3 counterexample: on the stdout transcript `["", "ok 1.0"]` the loop
hits `[-1]` on an empty token list and raises (modelled `none`), while the
claim as stated promises the float parse of `"1.0"`, the last token of the
final line. -/
theorem eval_model_scorer_counterexample :
    evalScore parseProbe ["", "ok 1.0"] = none ∧
    parseProbe "1.0" = some 1 ∧ (none : Option ℝ) ≠ some 1 :=
  ⟨rfl, rfl, by simp⟩

/-- C4: in training mode `Model.forward` returns the classify-layer (CRF)
loss plus `opt.l2` times the L2 norm of the `hidden2tag` weights; in
evaluation mode the classify-layer loss is returned unchanged. -/
theorem forward_adds_l2_only_in_training (l2 : ℝ) (w : List (List ℝ))
    (Tm : ℕ → ℕ → ℝ) (C : ℕ) (es : List (ℕ → ℝ)) (g : List ℕ) :
    modelForwardLoss true l2 w (crfLossFull Tm C es g)
        = crfLossFull Tm C es g + l2 * l2norm w ∧
    modelForwardLoss false l2 w (crfLossFull Tm C es g)
        = crfLossFull Tm C es g :=
  ⟨rfl, rfl⟩

/-! ## Lemmas about non-incremental label indexing -/

theorem labelToIndexRow_false : ∀ (row : List String) (d : List (String × ℕ))
    (out : List ℕ),
    row.foldl (labelToIndexStep false) (d, out)
      = (d, out ++ row.map (fun lab => (lookupD d lab).getD 0)) := by
  intro row
  induction row with
  | nil => intro d out; simp
  | cons lab rest ih =>
    intro d out
    have hstep : labelToIndexStep false (d, out) lab
        = (d, out ++ [(lookupD d lab).getD 0]) := by
      simp [labelToIndexStep]
    simp only [List.foldl_cons, hstep, ih, List.map_cons]
    simp

theorem label_to_index_false : ∀ (y : List (List String))
    (d : List (String × ℕ)) (out : List (List ℕ)),
    y.foldl (fun acc row =>
        let r := labelToIndexRow false acc.1 row
        (r.1, acc.2 ++ [r.2])) (d, out)
      = (d, out ++ y.map (fun row => row.map (fun lab => (lookupD d lab).getD 0))) := by
  intro y
  induction y with
  | nil => intro d out; simp
  | cons row yrest ih =>
    intro d out
    rw [List.foldl_cons]
    have hrow : labelToIndexRow false d row
        = (d, row.map (fun lab => (lookupD d lab).getD 0)) := by
      rw [labelToIndexRow, labelToIndexRow_false]
      simp
    show List.foldl (fun acc row =>
          let r := labelToIndexRow false acc.1 row
          (r.1, acc.2 ++ [r.2]))
        ((labelToIndexRow false d row).1, out ++ [(labelToIndexRow false d row).2]) yrest
      = (d, out ++ (row :: yrest).map (fun row => row.map (fun lab => (lookupD d lab).getD 0)))
    rw [hrow]
    rw [ih d (out ++ [row.map (fun lab => (lookupD d lab).getD 0)])]
    simp

/-- C5: with `incremental=False`, `label_to_index` leaves the dictionary
unchanged and maps every label through `label_to_ix.get(label, 0)`, so a
label absent from the dictionary gets the fallback id `0` and the call never
fails; likewise `create_one_batch` maps a word absent from the word
dictionary to the `<oov>` id. -/
theorem unknown_lookups_fall_back (d w2i : List (String × ℕ))
    (y : List (List String)) (lab word : String) (oovId : ℕ)
    (hlab : ∀ p ∈ d, p.1 ≠ lab) (hword : ∀ p ∈ w2i, p.1 ≠ word) :
    (label_to_index false d y).1 = d ∧
    (label_to_index false d y).2
      = y.map (fun row => row.map (fun s => (lookupD d s).getD 0)) ∧
    (lookupD d lab).getD 0 = 0 ∧
    wordToId w2i oovId word = oovId := by
  have hnone : lookupD d lab = none := by
    unfold lookupD
    rw [List.find?_eq_none.mpr]
    · rfl
    · intro p hp
      simpa using hlab p hp
  have hwnone : lookupD w2i word = none := by
    unfold lookupD
    rw [List.find?_eq_none.mpr]
    · rfl
    · intro p hp
      simpa using hword p hp
  refine ⟨?_, ?_, ?_, ?_⟩
  · rw [label_to_index, label_to_index_false]
  · rw [label_to_index, label_to_index_false]
    simp
  · rw [hnone]
    rfl
  · rw [wordToId, hwnone]
    rfl

/-- Witness for C5 at a concrete dictionary and corpus. -/
theorem unknown_lookups_fall_back_witness :
    (label_to_index false [("<pad>", 0), ("NN", 1)] [["NN", "VB"]]).1
        = [("<pad>", 0), ("NN", 1)] ∧
    (label_to_index false [("<pad>", 0), ("NN", 1)] [["NN", "VB"]]).2
      = [["NN", "VB"]].map (fun row => row.map
          (fun s => (lookupD [("<pad>", 0), ("NN", 1)] s).getD 0)) ∧
    (lookupD [("<pad>", 0), ("NN", 1)] "VB").getD 0 = 0 ∧
    wordToId [("the", 0), ("<oov>", 1)] 1 "zzz" = 1 :=
  unknown_lookups_fall_back [("<pad>", 0), ("NN", 1)] [("the", 0), ("<oov>", 1)]
    [["NN", "VB"]] "VB" "zzz" 1 (by decide) (by decide)

/-! ## Lemmas about row padding -/

theorem set_append_cons (x v : ℕ) : ∀ (pre post : List ℕ),
    (pre ++ x :: post).set pre.length v = pre ++ v :: post := by
  intro pre
  induction pre with
  | nil => intro post; rfl
  | cons a pre' ih =>
    intro post
    simp only [List.cons_append, List.length_cons, List.set]
    exact congrArg (fun t => a :: t) (ih post)

theorem writeFrom_append : ∀ (ids pre post : List ℕ),
    ids.length ≤ post.length →
    writeFrom (pre ++ post) pre.length ids = pre ++ ids ++ post.drop ids.length := by
  intro ids
  induction ids with
  | nil => intro pre post _; simp [writeFrom]
  | cons x rest ih =>
    intro pre post h
    cases post with
    | nil => simp at h
    | cons p0 ptail =>
      simp only [writeFrom, set_append_cons]
      have hpx : pre.length + 1 = (pre ++ [x]).length := by simp
      rw [hpx]
      have hassoc : pre ++ x :: ptail = (pre ++ [x]) ++ ptail := by simp
      rw [hassoc, ih (pre ++ [x]) ptail (by simpa using h)]
      simp

/-- C6: rows built by `create_one_batch` hold the pad word id in `batch_x`
and the pad tag id `0` in `batch_y` at every position at or beyond the
valid length of the sequence, and the decode loop reads only the first `len`
entries of a row, so padded positions never reach the emitted tags. -/
theorem padding_beyond_valid_length (padId : ℕ) (ids tags : List ℕ)
    (maxLen : ℕ) (hle : ids.length ≤ maxLen) (htl : tags.length ≤ maxLen) :
    fillRow padId maxLen ids = ids ++ List.replicate (maxLen - ids.length) padId ∧
    fillRow 0 maxLen tags = tags ++ List.replicate (maxLen - tags.length) 0 ∧
    (∀ j, ids.length ≤ j → (fillRow padId maxLen ids).getD j padId = padId) ∧
    (∀ j, tags.length ≤ j → (fillRow 0 maxLen tags).getD j 0 = 0) ∧
    (∀ junk : List ℕ, takeValid (ids ++ junk) ids.length = ids) := by
  have hfill : ∀ (f : ℕ) (l : List ℕ), l.length ≤ maxLen →
      fillRow f maxLen l = l ++ List.replicate (maxLen - l.length) f := by
    intro f l hl
    have hw := writeFrom_append l [] (List.replicate maxLen f) (by simpa using hl)
    simp only [List.nil_append, List.length_nil] at hw
    rw [fillRow, hw, List.drop_replicate]
  have hpad : ∀ (f : ℕ) (l : List ℕ), l.length ≤ maxLen →
      ∀ j, l.length ≤ j → (fillRow f maxLen l).getD j f = f := by
    intro f l hl j hj
    rw [hfill f l hl]
    rcases lt_or_le j (maxLen) with hlt | hge
    · rw [List.getD_append_right _ _ _ _ hj]
      have hrep : j - l.length < maxLen - l.length := by omega
      rw [List.getD_eq_getElem _ _ (by simpa using hrep), List.getElem_replicate]
    · apply List.getD_eq_default
      simp only [List.length_append, List.length_replicate]
      omega
  exact ⟨hfill padId ids hle, hfill 0 tags htl,
    hpad padId ids hle, hpad 0 tags htl,
    fun junk => List.take_left ids junk⟩

/-- Witness for C6 at a concrete row. -/
theorem padding_beyond_valid_length_witness :
    fillRow 9 4 [5, 6] = [5, 6] ++ List.replicate 2 9 ∧
    fillRow 0 4 [1] = [1] ++ List.replicate 3 0 ∧
    (∀ j, 2 ≤ j → (fillRow 9 4 [5, 6]).getD j 9 = 9) ∧
    (∀ j, 1 ≤ j → (fillRow 0 4 [1]).getD j 0 = 0) ∧
    (∀ junk : List ℕ, takeValid ([5, 6] ++ junk) 2 = [5, 6]) := by
  have h := padding_beyond_valid_length 9 [5, 6] [1] 4 (by decide) (by decide)
  simpa using h

/-! ## Lemmas about the label dictionary file -/

theorem digitChar_spec (d : ℕ) (h : d < 10) :
    (Nat.digitChar d).isDigit = true ∧ (Nat.digitChar d).isWhitespace = false ∧
    Nat.digitChar d ≠ '\t' ∧ Nat.digitChar d ≠ '\n' ∧
    (Nat.digitChar d).toNat - 48 = d := by
  interval_cases d <;> exact (by decide)

theorem natToCharsAux_spec : ∀ (fuel n : ℕ), n < fuel →
    natToCharsAux fuel n ≠ [] ∧
    (∀ c ∈ natToCharsAux fuel n,
      c.isDigit = true ∧ c.isWhitespace = false ∧ c ≠ '\t' ∧ c ≠ '\n') ∧
    (natToCharsAux fuel n).foldl (fun a c => a * 10 + (c.toNat - 48)) 0 = n := by
  intro fuel
  induction fuel with
  | zero => intro n h; omega
  | succ fuel ih =>
    intro n h
    by_cases h10 : n < 10
    · obtain ⟨hd, hw, ht, hnl, hv⟩ := digitChar_spec n h10
      simp only [natToCharsAux, if_pos h10]
      refine ⟨by simp, ?_, ?_⟩
      · intro c hc
        rw [List.mem_singleton] at hc
        subst hc
        exact ⟨hd, hw, ht, hnl⟩
      · simp only [List.foldl_cons, List.foldl_nil]
        omega
    · have hge : 10 ≤ n := Nat.le_of_not_lt h10
      have hdiv : n / 10 < fuel := by
        have h1 : n / 10 < n := Nat.div_lt_self (by omega) (by omega)
        omega
      obtain ⟨ihne, ihmem, ihval⟩ := ih (n / 10) hdiv
      obtain ⟨hd, hw, ht, hnl, hv⟩ := digitChar_spec (n % 10) (Nat.mod_lt _ (by omega))
      simp only [natToCharsAux, if_neg h10]
      refine ⟨by simp, ?_, ?_⟩
      · intro c hc
        rcases List.mem_append.mp hc with hc1 | hc2
        · exact ihmem c hc1
        · rw [List.mem_singleton] at hc2
          subst hc2
          exact ⟨hd, hw, ht, hnl⟩
      · rw [List.foldl_append, ihval]
        simp only [List.foldl_cons, List.foldl_nil]
        omega

theorem natToChars_spec (n : ℕ) :
    natToChars n ≠ [] ∧
    (∀ c ∈ natToChars n,
      c.isDigit = true ∧ c.isWhitespace = false ∧ c ≠ '\t' ∧ c ≠ '\n') ∧
    (natToChars n).foldl (fun a c => a * 10 + (c.toNat - 48)) 0 = n :=
  natToCharsAux_spec (n + 1) n (Nat.lt_succ_self n)

theorem parseNat_natToChars (n : ℕ) : parseNatChars (natToChars n) = some n := by
  obtain ⟨hne, hmem, hval⟩ := natToChars_spec n
  rw [parseNatChars, if_pos]
  · rw [hval]
  · refine ⟨hne, ?_⟩
    rw [List.all_eq_true]
    intro c hc
    exact (hmem c hc).1

theorem splitTabAux_no_tab : ∀ (l acc : List Char), '\t' ∉ l →
    splitTabAux acc l = [acc.reverse ++ l] := by
  intro l
  induction l with
  | nil => intro acc _; simp [splitTabAux]
  | cons c rest ih =>
    intro acc h
    have hc : c ≠ '\t' := fun hc => h (hc ▸ List.mem_cons_self _ _)
    have hr : '\t' ∉ rest := fun hr => h (List.mem_cons_of_mem _ hr)
    simp only [splitTabAux, if_neg hc]
    rw [ih (c :: acc) hr]
    simp

theorem splitTabAux_append : ∀ (l1 : List Char) (l2 acc : List Char), '\t' ∉ l1 →
    splitTabAux acc (l1 ++ '\t' :: l2) = (acc.reverse ++ l1) :: splitTabAux [] l2 := by
  intro l1
  induction l1 with
  | nil => intro l2 acc _; simp [splitTabAux]
  | cons c rest ih =>
    intro l2 acc h
    have hc : c ≠ '\t' := fun hc => h (hc ▸ List.mem_cons_self _ _)
    have hr : '\t' ∉ rest := fun hr => h (List.mem_cons_of_mem _ hr)
    simp only [List.cons_append, splitTabAux, if_neg hc, List.append_eq]
    rw [ih l2 (c :: acc) hr]
    simp

theorem splitLinesAux_append : ∀ (l1 : List Char) (l2 acc : List Char), '\n' ∉ l1 →
    splitLinesAux acc (l1 ++ '\n' :: l2) = (acc.reverse ++ l1) :: splitLinesAux [] l2 := by
  intro l1
  induction l1 with
  | nil => intro l2 acc _; simp [splitLinesAux]
  | cons c rest ih =>
    intro l2 acc h
    have hc : c ≠ '\n' := fun hc => h (hc ▸ List.mem_cons_self _ _)
    have hr : '\n' ∉ rest := fun hr => h (List.mem_cons_of_mem _ hr)
    simp only [List.cons_append, splitLinesAux, if_neg hc, List.append_eq]
    rw [ih l2 (c :: acc) hr]
    simp

theorem stripChars_eq_self (l : List Char) (hne : l ≠ [])
    (hh : ∀ c, l.head? = some c → c.isWhitespace = false)
    (hl : ∀ c, l.getLast? = some c → c.isWhitespace = false) :
    stripChars l = l := by
  have h1 : l.dropWhile Char.isWhitespace = l := by
    cases l with
    | nil => rfl
    | cons c rest =>
      rw [List.dropWhile_cons, if_neg]
      rw [hh c rfl]
      simp
  have h2 : l.reverse.dropWhile Char.isWhitespace = l.reverse := by
    cases hrev : l.reverse with
    | nil => rfl
    | cons c rest =>
      rw [List.dropWhile_cons, if_neg]
      have hc : l.getLast? = some c := by
        rw [← List.head?_reverse, hrev]
        rfl
      rw [hl c hc]
      simp
  rw [stripChars, h1, h2, List.reverse_reverse]

theorem parseLine_dicLine (lab : String) (n : ℕ)
    (hhead : headNotWS lab.data = true)
    (htab : '\t' ∉ lab.data) :
    parseLineChars (dicLine (lab, n)) = some (lab, n) := by
  obtain ⟨hdne, hdmem, -⟩ := natToChars_spec n
  have hstrip : stripChars (lab.data ++ '\t' :: natToChars n)
      = lab.data ++ '\t' :: natToChars n := by
    apply stripChars_eq_self
    · cases lab.data <;> simp
    · intro c hc
      cases hld : lab.data with
      | nil => rw [hld] at hhead; simp [headNotWS] at hhead
      | cons c0 rest =>
        rw [hld] at hc
        simp only [List.cons_append, List.head?_cons, Option.some.injEq] at hc
        subst hc
        rw [hld] at hhead
        simp only [headNotWS, Bool.not_eq_true'] at hhead
        exact hhead
    · intro c hc
      have hrw : lab.data ++ '\t' :: natToChars n
          = (lab.data ++ ['\t']) ++ natToChars n := by simp
      rw [hrw, List.getLast?_append_of_ne_nil _ hdne] at hc
      obtain ⟨h9, heq⟩ := List.mem_getLast?_eq_getLast (Option.mem_def.mpr hc)
      have hcm : c ∈ natToChars n := heq ▸ List.getLast_mem h9
      exact (hdmem c hcm).2.1
  have hnotab : '\t' ∉ natToChars n := by
    intro hc
    exact absurd rfl (hdmem _ hc).2.2.1
  rw [parseLineChars, dicLine]
  simp only
  rw [hstrip, splitTabAux_append lab.data (natToChars n) [] htab,
    splitTabAux_no_tab (natToChars n) [] hnotab]
  simp only [List.reverse_nil, List.nil_append]
  rw [parseNat_natToChars n]
  simp only [Option.map_some']

/-- C7 counterexample: the label `" a"` contains neither a tab nor a newline,
yet writing `[(" a", 0)]` to `label.dic` and reading it back yields
`[("a", 0)]`, because `test()` applies `line.strip()` before splitting and
the leading space is lost. -/
theorem label_dic_round_trip_counterexample :
    readDicChars (writeDicChars [(" a", 0)]) = some [("a", 0)] ∧
    (some [("a", 0)] : Option (List (String × ℕ))) ≠ some [(" a", 0)] :=
  ⟨rfl, by decide⟩

/-- C7 (amended): `train()` writes one `label TAB id` pair per line and
`test()` reconstructs exactly the written mapping, for every label dictionary
whose label strings contain no tab and no newline, are nonempty, and do not
begin with a whitespace character (a leading-whitespace or empty label is
corrupted by the `line.strip()` in `test()`). -/
theorem label_dic_round_trip (d : List (String × ℕ))
    (h : ∀ p ∈ d, headNotWS p.1.data = true ∧ '\t' ∉ p.1.data ∧ '\n' ∉ p.1.data) :
    readDicChars (writeDicChars d) = some d := by
  induction d with
  | nil => rfl
  | cons p drest ih =>
    obtain ⟨hhead, htab, hnl⟩ := h p (List.mem_cons_self _ _)
    have hrest := ih (fun q hq => h q (List.mem_cons_of_mem _ hq))
    obtain ⟨hdne, hdmem, -⟩ := natToChars_spec p.2
    have hlinenl : '\n' ∉ dicLine p := by
      intro hc
      rw [dicLine] at hc
      rcases List.mem_append.mp hc with hc1 | hc2
      · exact hnl hc1
      · rcases List.mem_cons.mp hc2 with hc3 | hc4
        · exact absurd hc3.symm (by decide)
        · exact absurd rfl (hdmem _ hc4).2.2.2
    have hcontent : writeDicChars (p :: drest)
        = dicLine p ++ '\n' :: writeDicChars drest := by
      rw [writeDicChars, List.map_cons, List.flatten_cons]
      simp [writeDicChars]
    rw [readDicChars, hcontent, splitLinesAux_append _ _ _ hlinenl]
    have hline : parseLineChars (dicLine p) = some p := by
      have := parseLine_dicLine p.1 p.2 hhead htab
      simpa using this
    rw [List.mapM_cons]
    simp only [List.reverse_nil, List.nil_append, hline]
    rw [readDicChars] at hrest
    rw [hrest]
    rfl

/-- Witness for C7 (amended) at a concrete dictionary. -/
theorem label_dic_round_trip_witness :
    readDicChars (writeDicChars [("<pad>", 0), ("NN", 1)])
      = some [("<pad>", 0), ("NN", 1)] :=
  label_dic_round_trip [("<pad>", 0), ("NN", 1)] (by decide)

/-- C8: both `test` subcommands fail before emitting any decoded output:
`test()` in tagger.py indexes the always-empty `word_emb_layers` list (and
its later `Model` call is one positional argument short of the
seven-parameter signature), and `test()` in standalone_tagger.py calls
`Model` with five arguments against a six-parameter signature; in each case
the error is raised no matter what the rest of the function would compute. -/
theorem test_subcommands_crash_before_output
    (rest rest' : Unit → Except String (List String)) :
    taggerTestRun rest = Except.error "IndexError: list index out of range" ∧
    standaloneTestRun rest'
      = Except.error "TypeError: init missing 1 required positional argument" ∧
    taggerTestModelArgs ≠ taggerModelArity ∧
    standaloneTestModelArgs ≠ standaloneModelArity := by
  refine ⟨rfl, ?_, by decide, by decide⟩
  rw [standaloneTestRun, if_neg (by decide)]

/-- C9: after `eval_model` finishes, the file at the predicted-output path
has been removed — also when the caller supplied `args.output` explicitly —
and no other path is affected beyond its normal contents. -/
theorem eval_model_removes_output_file (fs : String → Option (List String))
    (outputArg : Option String) (tmp : String) (outLines : List String) :
    (evalModelFS fs outputArg tmp outLines).1
        ((evalModelFS fs outputArg tmp outLines).2) = none ∧
    (∀ p, outputArg = some p → (evalModelFS fs outputArg tmp outLines).2 = p) ∧
    (outputArg = none → (evalModelFS fs outputArg tmp outLines).2 = tmp) ∧
    (∀ q, q ≠ (evalModelFS fs outputArg tmp outLines).2 →
      (evalModelFS fs outputArg tmp outLines).1 q = fs q) := by
  refine ⟨?_, ?_, ?_, ?_⟩
  · simp [evalModelFS]
  · intro p hp
    subst hp
    rfl
  · intro hp
    subst hp
    rfl
  · intro q hq
    simp only [evalModelFS] at hq ⊢
    rw [if_neg hq, if_neg hq]

/-- Witness for C9 at a concrete filesystem and explicit output path. -/
theorem eval_model_removes_output_file_witness :
    (evalModelFS (fun _ => none) (some "out.txt") "tmp.tmp" ["NN", ""]).1
        ((evalModelFS (fun _ => none) (some "out.txt") "tmp.tmp" ["NN", ""]).2)
      = none ∧
    (evalModelFS (fun _ => none) (some "out.txt") "tmp.tmp" ["NN", ""]).2
      = "out.txt" ∧
    (evalModelFS (fun _ => none) (some "out.txt") "tmp.tmp" ["NN", ""]).1
        "other.txt" = none := by
  have h := eval_model_removes_output_file (fun _ => none) (some "out.txt")
    "tmp.tmp" ["NN", ""]
  exact ⟨h.1, h.2.1 "out.txt" rfl, h.2.2.2 "other.txt" (by decide)⟩

/-! ## Lemmas about `keep_full` batching -/

theorem sorted_getD_ge (lens : List ℕ)
    (hs : lens.Sorted (fun a b => b ≤ a)) (i j : ℕ) (hij : i ≤ j)
    (hj : j < lens.length) :
    lens.getD j 0 ≤ lens.getD i 0 := by
  have hi : i < lens.length := lt_of_le_of_lt hij hj
  rcases eq_or_lt_of_le hij with heq | hlt
  · subst heq
    exact le_refl _
  · have hp := (List.pairwise_iff_getElem.mp hs) i j hi hj hlt
    rw [List.getD_eq_getElem _ _ hi, List.getD_eq_getElem _ _ hj]
    exact hp

theorem extendRun_uniform (lens : List ℕ) (start : ℕ) :
    ∀ (fuel e : ℕ),
      (∀ k, start ≤ k → k < e → lens.getD k 0 = lens.getD start 0) →
      ∀ k, start ≤ k → k < extendRun lens start fuel e →
        lens.getD k 0 = lens.getD start 0 := by
  intro fuel
  induction fuel with
  | zero => intro e hinv k hk1 hk2; exact hinv k hk1 hk2
  | succ fuel ih =>
    intro e hinv k hk1 hk2
    rw [extendRun] at hk2
    by_cases hcond : e < lens.length ∧ lens.getD e 0 = lens.getD start 0
    · rw [if_pos hcond] at hk2
      refine ih (e + 1) ?_ k hk1 hk2
      intro k' hk'1 hk'2
      rcases Nat.lt_or_ge k' e with hlt | hge
      · exact hinv k' hk'1 hlt
      · have : k' = e := by omega
        subst this
        exact hcond.2
    · rw [if_neg hcond] at hk2
      exact hinv k hk1 hk2

theorem extendRun_stop (lens : List ℕ) (start : ℕ) :
    ∀ (fuel e : ℕ), lens.length ≤ e + fuel → e ≤ lens.length →
      extendRun lens start fuel e = lens.length ∨
      (extendRun lens start fuel e < lens.length ∧
        lens.getD (extendRun lens start fuel e) 0 ≠ lens.getD start 0) := by
  intro fuel
  induction fuel with
  | zero =>
    intro e hf he
    left
    rw [extendRun]
    omega
  | succ fuel ih =>
    intro e hf he
    rw [extendRun]
    by_cases hcond : e < lens.length ∧ lens.getD e 0 = lens.getD start 0
    · rw [if_pos hcond]
      exact ih (e + 1) (by omega) (by omega)
    · rw [if_neg hcond]
      rcases Nat.lt_or_ge e lens.length with hlt | hge
      · right
        refine ⟨hlt, ?_⟩
        intro hc
        exact hcond ⟨hlt, hc⟩
      · left
        omega

theorem batchLoop_keep_full_spec (lens : List ℕ) (size : ℕ)
    (hs : lens.Sorted (fun a b => b ≤ a)) (hsize : 1 ≤ size) :
    ∀ (fuel start : ℕ), ∀ se ∈ batchLoop lens size true fuel start,
      (∀ k, se.1 ≤ k → k < se.2 → lens.getD k 0 = lens.getD se.1 0) ∧
      (se.2 = lens.length ∨ se.2 - se.1 = size ∨
        lens.getD se.2 0 ≠ lens.getD se.1 0) := by
  intro fuel
  induction fuel with
  | zero => intro start se hse; simp [batchLoop] at hse
  | succ fuel ih =>
    intro start se hse
    rw [batchLoop] at hse
    by_cases hstart : start < lens.length
    · rw [if_pos hstart] at hse
      simp only at hse
      rcases List.mem_cons.mp hse with hhead | htail
      · subst hhead
        by_cases hmix : True ∧ lens.getD start 0 ≠ lens.getD (min (start + size) lens.length - 1) 0
        · rw [if_pos (by simpa using hmix)]
          simp only
          constructor
          · exact extendRun_uniform lens start lens.length (start + 1)
              (fun k hk1 hk2 => by
                have : k = start := by omega
                subst this
                rfl)
          · rcases extendRun_stop lens start lens.length (start + 1)
              (by omega) (by omega) with hstop | hstop
            · exact Or.inl hstop
            · exact Or.inr (Or.inr hstop.2)
        · rw [if_neg (by simpa using hmix)]
          simp only
          have heq : lens.getD start 0 = lens.getD (min (start + size) lens.length - 1) 0 := by
            by_contra hc
            exact hmix ⟨trivial, hc⟩
          constructor
          · intro k hk1 hk2
            have hke : k ≤ min (start + size) lens.length - 1 := by omega
            have hend : min (start + size) lens.length - 1 < lens.length := by omega
            have h1 : lens.getD k 0 ≤ lens.getD start 0 :=
              sorted_getD_ge lens hs start k hk1 (by omega)
            have h2 : lens.getD (min (start + size) lens.length - 1) 0 ≤ lens.getD k 0 :=
              sorted_getD_ge lens hs k _ hke hend
            omega
          · rcases Nat.lt_or_ge (start + size) lens.length with hlt | hge
            · right; left
              omega
            · left
              omega
      · exact ih _ se htail
    · rw [if_neg hstart] at hse
      simp at hse

/-- C10: with `sort=True` (descending lengths) and `keep_full=True`, every
batch range produced by `create_batches` covers only sequences of equal
length, and each batch ends at the data end, or is exactly `batch_size`
long, or stops right before the first sequence whose length differs from
the first sequence of the batch (the maximal equal-length run). -/
theorem keep_full_batches_uniform_length (lens : List ℕ) (size : ℕ)
    (hs : lens.Sorted (fun a b => b ≤ a)) (hsize : 1 ≤ size) :
    ∀ se ∈ createBatchRanges lens size true,
      (∀ k, se.1 ≤ k → k < se.2 → lens.getD k 0 = lens.getD se.1 0) ∧
      (se.2 = lens.length ∨ se.2 - se.1 = size ∨
        lens.getD se.2 0 ≠ lens.getD se.1 0) := by
  intro se hse
  exact batchLoop_keep_full_spec lens size hs hsize lens.length 0 se hse

/-- Witness for C10 at a concrete sorted length profile. -/
theorem keep_full_batches_uniform_length_witness :
    ((1, 3) ∈ createBatchRanges [4, 3, 3, 2] 3 true) ∧
    [4, 3, 3, 2].getD 2 0 = [4, 3, 3, 2].getD 1 0 := by
  have h := keep_full_batches_uniform_length [4, 3, 3, 2] 3 (by decide)
    (by decide) (1, 3) (by decide)
  exact ⟨by decide, h.1 2 (by decide) (by decide)⟩

end ELMoTagger
